import Mathlib

/-!
Shallow embedding of the iterative-solver core of a numerical
optimization framework: the Lagrangian dual relaxation of a
box-constrained quadratic program with a cached factorization and a
one-slot memo, the proximal bundle method, and the accelerated
gradient method. Numeric scalars are modelled as rationals; external
numerical kernels (the numpy norm and sqrt, the Cholesky factorization
routine, the backtracking line search, the QP master solver) are
abstract function parameters.
-/

namespace NumOpt

abbrev Vec := List ℚ
abbrev Mat := List (List ℚ)

def vadd (a b : Vec) : Vec := List.zipWith (fun s t => s + t) a b

def vsub (a b : Vec) : Vec := List.zipWith (fun s t => s - t) a b

def vneg (a : Vec) : Vec := a.map (fun t => -t)

def smul (c : ℚ) (a : Vec) : Vec := a.map (fun t => c * t)

def dot (a b : Vec) : ℚ := (List.zipWith (fun s t => s * t) a b).sum

/-- Matrix-vector product Q x, rows of Q dotted with x. -/
def matVec (Q : Mat) (x : Vec) : Vec := Q.map (fun row => dot row x)

/-- Row-vector-matrix product x^T Q, written as the sum over i of
x_i times the i-th row of Q. -/
def vecMat (x : Vec) (Q : Mat) : Vec :=
  (List.zipWith (fun xi row => smul xi row) x Q).foldr vadd
    (List.replicate Q.headI.length 0)

/-- The four terminal statuses shared by the solvers. -/
inductive TermStatus
  | optimal
  | unbounded
  | stopped
  | error
  deriving DecidableEq, Repr

/-- Rationals extended with a positive-infinity element, modelling the
numpy float infinity used to initialize best-so-far values. -/
inductive QInf
  | fin (q : ℚ)
  | inf
  deriving DecidableEq, Repr

/-- The Python comparison v < w where w may be infinity. -/
def qltQI (v : ℚ) : QInf → Prop
  | .fin w => v < w
  | .inf => True

instance (v : ℚ) (w : QInf) : Decidable (qltQI v w) :=
  match w with
  | .fin u => inferInstanceAs (Decidable (v < u))
  | .inf => inferInstanceAs (Decidable True)

/-- The Python comparison v > w where w may be infinity. -/
def qgtQI (v : ℚ) : QInf → Prop
  | .fin w => v > w
  | .inf => False

instance (v : ℚ) (w : QInf) : Decidable (qgtQI v w) :=
  match w with
  | .fin u => inferInstanceAs (Decidable (v > u))
  | .inf => inferInstanceAs (Decidable False)

/-- Python runtime objects relevant to the raise-statement semantics:
a numpy ndarray, the float infinity, or an exception object. -/
inductive PyObj
  | ndarray (shape : Nat)
  | floatInf
  | exc (name : String)
  deriving DecidableEq, Repr

/-- Only exception objects are valid raise operands. -/
def PyObj.isExc : PyObj → Bool
  | .exc _ => true
  | _ => false

/-- Outcome of a Python call: a normal return or a propagated exception. -/
inductive PyOutcome (α : Type)
  | ok (a : α)
  | raised (e : PyObj)
  deriving DecidableEq

/-- Semantics of the Python raise statement: raising an object that is
not an exception itself fails with a TypeError. -/
def pyRaiseStmt {α : Type} (v : PyObj) : PyOutcome α :=
  if v.isExc then .raised v else .raised (.exc "TypeError")

/-!
## LagrangianBoxConstrainedQuadratic
Embeds src/optiml/opti/constrained/bcqp/_base.py. The state gathers
the immutable problem data set up by the constructor, the one-slot
memo (last_lmbda, last_x) kept as a single optional pair because the
two fields are always written together, the primal-heuristic cache,
and two ghost counters recording how many factorizations and
factor-based solves have been performed.
-/

structure LagState where
  Q : Mat
  q : Vec
  L : Mat
  ub : Vec
  primalQ : Mat
  primalq : Vec
  memo : Option (Vec × Vec)
  primalX : Option Vec
  primalFX : QInf
  factCount : Nat
  solveCount : Nat
  deriving DecidableEq, Repr

/-- Constructor of the relaxation. The positive-definite repair
nearest_posdef and the factorization numpy.linalg.cholesky live
outside the sources, so they are abstract parameters npd and chl
(modelled from the spec: an externally supplied nearest
positive-definite repair followed by a Cholesky factorization computed
once at construction). Returns none when some upper bound is negative,
modelling the ValueError raised there; the ghost factCount starts at 1
because exactly one factorization is computed here. -/
def mkLag (npd chl : Mat → Mat) (Q0 : Mat) (q0 : Vec) (ub : Vec) : Option LagState :=
  if ∃ u ∈ ub, u < 0 then none
  else
    let Qr := npd Q0
    some { Q := Qr, q := q0, L := chl Qr, ub := ub,
           primalQ := Q0, primalq := q0,
           memo := none, primalX := none, primalFX := .inf,
           factCount := 1, solveCount := 0 }

/-- numpy.split(lmbda, 2): the two halves lambda_plus, lambda_minus. -/
def splitHalf (l : Vec) : Vec × Vec := (l.take (l.length / 2), l.drop (l.length / 2))

/-- ql = q + lambda_plus - lambda_minus. -/
def qlOf (st : LagState) (lmbda : Vec) : Vec :=
  vadd st.q (vsub (splitHalf lmbda).1 (splitHalf lmbda).2)

/-- The numpy.array_equal test of lmbda against the memoized last_lmbda. -/
def memoHit (st : LagState) (lmbda : Vec) : Prop :=
  match st.memo with
  | some lx => lx.1 = lmbda
  | none => False

instance (st : LagState) (lmbda : Vec) : Decidable (memoHit st lmbda) := by
  unfold memoHit
  rcases st.memo with _ | lx
  · exact inferInstanceAs (Decidable False)
  · exact inferInstanceAs (Decidable (lx.1 = lmbda))

/-- The inner point x used by an evaluation at lmbda: the memoized
last_x on a memo hit, otherwise the factor-based solve of
Q x = -(q + lambda_plus - lambda_minus). The solver cholesky_solve of
the optiml utilities is outside the sources, so it is the abstract
parameter slv (modelled from the spec: every subsequent solve reuses
the factorization computed at construction). -/
def lagInnerX (slv : Mat → Vec → Vec) (st : LagState) (lmbda : Vec) : Vec :=
  match st.memo with
  | some lx => if lx.1 = lmbda then lx.2 else slv st.L (vneg (qlOf st lmbda))
  | none => slv st.L (vneg (qlOf st lmbda))

/-- State after the shared memo-check-or-solve step of function and
jacobian: on a miss the memo is filled and the ghost solve counter is
bumped. -/
def lagMemoStep (slv : Mat → Vec → Vec) (st : LagState) (lmbda : Vec) : LagState :=
  if memoHit st lmbda then st
  else { st with memo := some (lmbda, lagInnerX slv st lmbda),
                 solveCount := st.solveCount + 1 }

/-- The dual value (0.5 x^T Q + ql^T) x - lambda_plus^T ub at a given x. -/
def dualVal (st : LagState) (lmbda : Vec) (x : Vec) : ℚ :=
  dot (vadd (smul (1/2) (vecMat x st.Q)) (qlOf st lmbda)) x
    - dot (splitHalf lmbda).1 st.ub

/-- LagrangianBoxConstrainedQuadratic.function. -/
def lagFunction (slv : Mat → Vec → Vec) (st : LagState) (lmbda : Vec) : ℚ × LagState :=
  (dualVal st lmbda (lagInnerX slv st lmbda), lagMemoStep slv st lmbda)

/-- The in-place projection of x onto the box: first clamp negatives
to 0, then clamp above ub (the two numpy masked assignments in order). -/
def boxProj (x ub : Vec) : Vec :=
  List.zipWith (fun t u => if u < t then u else t)
    (x.map (fun t => if t < 0 then 0 else t)) ub

/-- The wrapped primal quadratic objective 0.5 x^T Q0 x + q0^T x
(modelled from the spec: the Quadratic base class, outside the
sources, evaluates the quadratic from its coefficient matrix and
vector). -/
def primalFun (st : LagState) (x : Vec) : ℚ :=
  dot (vadd (smul (1/2) (vecMat x st.primalQ)) st.primalq) x

/-- LagrangianBoxConstrainedQuadratic.jacobian. The gradient is built
from the pre-projection x (numpy.hstack copies); the projection then
mutates the solve result in place, and since the memoized last_x is
the same array object the memo now holds the projected point. The
primal-heuristic cache is updated when v < primal_f_x, storing -v as
the code does. -/
def lagJacobian (slv : Mat → Vec → Vec) (st : LagState) (lmbda : Vec) : Vec × LagState :=
  let x := lagInnerX slv st lmbda
  let st1 := lagMemoStep slv st lmbda
  let g := vsub st1.ub x ++ x
  let xp := boxProj x st1.ub
  let st2 := { st1 with memo := some (lmbda, xp) }
  let v := primalFun st2 xp
  (g, if qltQI v st2.primalFX
      then { st2 with primalX := some xp, primalFX := .fin (-v) }
      else st2)

/-- An evaluation request against the relaxation. -/
inductive LagOp
  | fn (lmbda : Vec)
  | jac (lmbda : Vec)
  deriving DecidableEq, Repr

/-- Run a sequence of function and jacobian evaluations. -/
def runOps (slv : Mat → Vec → Vec) (st : LagState) : List LagOp → LagState
  | [] => st
  | .fn l :: rest => runOps slv (lagFunction slv st l).2 rest
  | .jac l :: rest => runOps slv (lagJacobian slv st l).2 rest

/-- LagrangianBoxConstrainedQuadratic.x_star: the raise statement with
the numpy array numpy.full(fill_value=nan, shape=ndim) as operand. -/
def lagXStar (ndim : Nat) : PyOutcome Vec := pyRaiseStmt (.ndarray ndim)

/-- LagrangianBoxConstrainedQuadratic.f_star: returns numpy.inf. -/
def lagFStar : PyOutcome PyObj := .ok .floatInf

/-- Concrete exact solver for the one-dimensional instance with
Q = [[1]]: the factor is the identity, so solving returns the right
hand side. -/
def cexSolve : Mat → Vec → Vec := fun _ b => b

/-- The relaxation of the primal with Q = [[1]], q = [0], ub = [1],
as built by the constructor with the identity repair and factorization. -/
def cexSt0 : LagState :=
  { Q := [[1]], q := [0], L := [[1]], ub := [1], primalQ := [[1]], primalq := [0],
    memo := none, primalX := none, primalFX := .inf, factCount := 1, solveCount := 0 }

/-- The state after a jacobian call at lambda = (0, 2) on cexSt0. -/
def cexSt1 : LagState :=
  { Q := [[1]], q := [0], L := [[1]], ub := [1], primalQ := [[1]], primalq := [0],
    memo := some ([0, 2], [1]), primalX := some [1], primalFX := .fin (-(1/2)),
    factCount := 1, solveCount := 1 }

/-- The state after a further jacobian call at lambda = (0, 1/2). -/
def cexSt2 : LagState :=
  { Q := [[1]], q := [0], L := [[1]], ub := [1], primalQ := [[1]], primalq := [0],
    memo := some ([0, 1/2], [1/2]), primalX := some [1], primalFX := .fin (-(1/2)),
    factCount := 1, solveCount := 2 }

theorem memoHit_shape (st : LagState) (lmbda : Vec) (hm : memoHit st lmbda) :
    ∃ xv, st.memo = some (lmbda, xv) := by
  unfold memoHit at hm
  cases h : st.memo with
  | none =>
    rw [h] at hm
    exact hm.elim
  | some lx =>
    rw [h] at hm
    have hm2 : lx.1 = lmbda := hm
    refine ⟨lx.2, ?_⟩
    obtain ⟨a, b⟩ := lx
    cases hm2
    rfl

theorem lagInnerX_of_memo (slv : Mat → Vec → Vec) (st : LagState) (lmbda xv : Vec)
    (h : st.memo = some (lmbda, xv)) : lagInnerX slv st lmbda = xv := by
  unfold lagInnerX
  rw [h]
  simp

theorem memoHit_of_memo (st : LagState) (lmbda xv : Vec)
    (h : st.memo = some (lmbda, xv)) : memoHit st lmbda := by
  unfold memoHit
  rw [h]

theorem lagMemoStep_of_memo (slv : Mat → Vec → Vec) (st : LagState) (lmbda xv : Vec)
    (h : st.memo = some (lmbda, xv)) : lagMemoStep slv st lmbda = st := by
  unfold lagMemoStep
  rw [if_pos (memoHit_of_memo st lmbda xv h)]

theorem lagMemoStep_memo (slv : Mat → Vec → Vec) (st : LagState) (lmbda : Vec) :
    (lagMemoStep slv st lmbda).memo = some (lmbda, lagInnerX slv st lmbda) := by
  by_cases hm : memoHit st lmbda
  · obtain ⟨xv, h⟩ := memoHit_shape st lmbda hm
    rw [lagMemoStep_of_memo slv st lmbda xv h, lagInnerX_of_memo slv st lmbda xv h, h]
  · unfold lagMemoStep
    rw [if_neg hm]

theorem lagMemoStep_fields (slv : Mat → Vec → Vec) (st : LagState) (lmbda : Vec) :
    (lagMemoStep slv st lmbda).Q = st.Q ∧ (lagMemoStep slv st lmbda).q = st.q ∧
    (lagMemoStep slv st lmbda).L = st.L ∧ (lagMemoStep slv st lmbda).ub = st.ub ∧
    (lagMemoStep slv st lmbda).factCount = st.factCount ∧
    (lagMemoStep slv st lmbda).primalQ = st.primalQ ∧
    (lagMemoStep slv st lmbda).primalq = st.primalq := by
  unfold lagMemoStep
  split <;> exact ⟨rfl, rfl, rfl, rfl, rfl, rfl, rfl⟩

theorem lagJacobian_state (slv : Mat → Vec → Vec) (st : LagState) (lmbda : Vec) :
    (lagJacobian slv st lmbda).2.memo
        = some (lmbda, boxProj (lagInnerX slv st lmbda) st.ub) ∧
    (lagJacobian slv st lmbda).2.L = st.L ∧
    (lagJacobian slv st lmbda).2.factCount = st.factCount ∧
    (lagJacobian slv st lmbda).2.ub = st.ub ∧
    (lagJacobian slv st lmbda).2.Q = st.Q ∧
    (lagJacobian slv st lmbda).2.q = st.q ∧
    (lagJacobian slv st lmbda).2.solveCount = (lagMemoStep slv st lmbda).solveCount := by
  obtain ⟨hQ, hq, hL, hub, hfc, hpQ, hpq⟩ := lagMemoStep_fields slv st lmbda
  simp only [lagJacobian]
  split <;> simp_all

theorem lagFunction_state (slv : Mat → Vec → Vec) (st : LagState) (lmbda : Vec) :
    (lagFunction slv st lmbda).2 = lagMemoStep slv st lmbda := rfl

theorem lagFunction_factCount_L (slv : Mat → Vec → Vec) (st : LagState) (lmbda : Vec) :
    (lagFunction slv st lmbda).2.factCount = st.factCount ∧
    (lagFunction slv st lmbda).2.L = st.L := by
  obtain ⟨_, _, hL, _, hfc, _, _⟩ := lagMemoStep_fields slv st lmbda
  exact ⟨hfc, hL⟩

theorem runOps_factCount_L (slv : Mat → Vec → Vec) (ops : List LagOp) (st : LagState) :
    (runOps slv st ops).factCount = st.factCount ∧ (runOps slv st ops).L = st.L := by
  induction ops generalizing st with
  | nil => exact ⟨rfl, rfl⟩
  | cons op rest ih =>
    cases op with
    | fn l =>
      obtain ⟨hfc, hL⟩ := lagFunction_factCount_L slv st l
      obtain ⟨ihf, ihL⟩ := ih (lagFunction slv st l).2
      exact ⟨by rw [runOps, ihf, hfc], by rw [runOps, ihL, hL]⟩
    | jac l =>
      obtain ⟨_, hL, hfc, _, _, _, _⟩ := lagJacobian_state slv st l
      obtain ⟨ihf, ihL⟩ := ih (lagJacobian slv st l).2
      exact ⟨by rw [runOps, ihf, hfc], by rw [runOps, ihL, hL]⟩

theorem mkLag_factCount (npd chl : Mat → Mat) (Q0 : Mat) (q0 ub : Vec) (st0 : LagState)
    (h : mkLag npd chl Q0 q0 ub = some st0) : st0.factCount = 1 := by
  unfold mkLag at h
  split at h
  · exact absurd h (by simp)
  · cases h
    rfl

theorem lagInnerX_of_miss (slv : Mat → Vec → Vec) (st : LagState) (lmbda : Vec)
    (h : ¬ memoHit st lmbda) :
    lagInnerX slv st lmbda = slv st.L (vneg (qlOf st lmbda)) := by
  unfold memoHit at h
  unfold lagInnerX
  cases hm : st.memo with
  | none => rfl
  | some lx =>
    rw [hm] at h
    simp only [if_neg h]

/-- C1 (amended): on the relaxation built by the constructor, the
factorization is computed exactly once, at construction: no sequence
of function or jacobian evaluations ever increases the ghost
factorization counter, and the stored factor never changes. Every
evaluation whose lambda misses the one-slot memo computes its inner
point by a factor-based solve against that stored factor, and that
point solves Q x = -(q + lambda_plus - lambda_minus) whenever the
abstract solver is exact on it; an evaluation that hits the memo
instead reuses the stored point, which after a jacobian call is the
box projection of a solution rather than a solution. -/
theorem c1_factorization_once_memo_miss_solves
    (npd chl : Mat → Mat) (slv : Mat → Vec → Vec) (Q0 : Mat) (q0 ub : Vec)
    (st0 : LagState) (h0 : mkLag npd chl Q0 q0 ub = some st0) (ops : List LagOp)
    (st : LagState) (lmbda : Vec) (hmiss : ¬ memoHit st lmbda)
    (hslv : matVec st.Q (slv st.L (vneg (qlOf st lmbda))) = vneg (qlOf st lmbda)) :
    (runOps slv st0 ops).factCount = 1 ∧
    (runOps slv st0 ops).L = st0.L ∧
    lagInnerX slv st lmbda = slv st.L (vneg (qlOf st lmbda)) ∧
    matVec st.Q (lagInnerX slv st lmbda) = vneg (qlOf st lmbda) := by
  obtain ⟨hfc, hL⟩ := runOps_factCount_L slv ops st0
  refine ⟨hfc.trans (mkLag_factCount npd chl Q0 q0 ub st0 h0), hL, ?_, ?_⟩
  · exact lagInnerX_of_miss slv st lmbda hmiss
  · rw [lagInnerX_of_miss slv st lmbda hmiss]
    exact hslv

/-- Witness for C1 on the concrete one-dimensional instance. -/
theorem c1_witness :
    (runOps cexSolve cexSt0 [.fn [0, 2], .jac [0, 2]]).factCount = 1 ∧
    (runOps cexSolve cexSt0 [.fn [0, 2], .jac [0, 2]]).L = cexSt0.L ∧
    lagInnerX cexSolve cexSt0 [0, 2] = cexSolve cexSt0.L (vneg (qlOf cexSt0 [0, 2])) ∧
    matVec cexSt0.Q (lagInnerX cexSolve cexSt0 [0, 2]) = vneg (qlOf cexSt0 [0, 2]) :=
  c1_factorization_once_memo_miss_solves (fun M => M) (fun M => M) cexSolve
    [[1]] [0] [1] cexSt0 (by norm_num [mkLag, cexSt0]) [.fn [0, 2], .jac [0, 2]]
    cexSt0 [0, 2] (by simp [memoHit, cexSt0])
    (by norm_num [matVec, cexSolve, cexSt0, vneg, qlOf, splitHalf, vadd, vsub, dot])

/-- C1 counterexample: after a jacobian call at lambda = (0, 2) on the
relaxation with Q = [[1]], q = [0], ub = [1] and the exact
one-dimensional solver, the next evaluation at the same lambda reuses
the memo, whose stored point is the box projection [1] of the solve
result [2]; that point does not solve Q x = -(q + lambda_plus -
lambda_minus), so not every evaluation computes its inner point as the
solution of the linear system. -/
theorem c1_counterexample :
    mkLag (fun M => M) (fun M => M) [[1]] [0] [1] = some cexSt0 ∧
    lagInnerX cexSolve (lagJacobian cexSolve cexSt0 [0, 2]).2 [0, 2] = [1] ∧
    matVec cexSt0.Q (lagInnerX cexSolve (lagJacobian cexSolve cexSt0 [0, 2]).2 [0, 2])
      ≠ vneg (qlOf cexSt0 [0, 2]) := by
  have hx : lagInnerX cexSolve cexSt0 [0, 2] = [2] := by
    norm_num [lagInnerX, cexSt0, cexSolve, qlOf, splitHalf, vadd, vsub, vneg]
  have hinner := lagInnerX_of_memo cexSolve _ [0, 2] _
    (lagJacobian_state cexSolve cexSt0 [0, 2]).1
  rw [hx] at hinner
  have hproj : boxProj [2] cexSt0.ub = [1] := by
    norm_num [boxProj, cexSt0]
  rw [hproj] at hinner
  refine ⟨by norm_num [mkLag, cexSt0], hinner, ?_⟩
  rw [hinner]
  norm_num [matVec, cexSt0, vneg, qlOf, splitHalf, vadd, vsub, dot]

/-- C5: when jacobian is called with the lambda of the immediately
preceding function call, the memoized solution is reused with no new
solve (the ghost solve counter does not move), and the returned
gradient is (ub - x, x) for that memoized x. -/
theorem c5_jacobian_after_function_reuses_memo
    (slv : Mat → Vec → Vec) (st : LagState) (lmbda : Vec) :
    (lagFunction slv st lmbda).2.memo = some (lmbda, lagInnerX slv st lmbda) ∧
    (lagJacobian slv (lagFunction slv st lmbda).2 lmbda).2.solveCount
        = (lagFunction slv st lmbda).2.solveCount ∧
    (lagJacobian slv (lagFunction slv st lmbda).2 lmbda).1
        = vsub st.ub (lagInnerX slv st lmbda) ++ lagInnerX slv st lmbda := by
  have hmemo : (lagFunction slv st lmbda).2.memo = some (lmbda, lagInnerX slv st lmbda) :=
    lagMemoStep_memo slv st lmbda
  have hstep : lagMemoStep slv (lagFunction slv st lmbda).2 lmbda = (lagFunction slv st lmbda).2 :=
    lagMemoStep_of_memo slv _ lmbda _ hmemo
  have hx : lagInnerX slv (lagFunction slv st lmbda).2 lmbda = lagInnerX slv st lmbda :=
    lagInnerX_of_memo slv _ lmbda _ hmemo
  obtain ⟨_, _, _, hub, _, _, _⟩ := lagMemoStep_fields slv st lmbda
  refine ⟨hmemo, ?_, ?_⟩
  · obtain ⟨_, _, _, _, _, _, hsc⟩ := lagJacobian_state slv (lagFunction slv st lmbda).2 lmbda
    rw [hsc, hstep]
  · show (vsub (lagMemoStep slv (lagFunction slv st lmbda).2 lmbda).ub
            (lagInnerX slv (lagFunction slv st lmbda).2 lmbda)
          ++ lagInnerX slv (lagFunction slv st lmbda).2 lmbda) = _
    rw [hstep, hx, lagFunction_state, hub]

/-- C8: jacobian projects the solve result onto the box while the
projected array stays stored as the memo entry: after any jacobian
call at lambda the memo holds the box-projected point, the returned
gradient is still built from the pre-projection point, and a
subsequent function call at the same lambda evaluates the dual at the
projected point instead of the linear-system solution. -/
theorem c8_jacobian_mutates_memo_in_place
    (slv : Mat → Vec → Vec) (st : LagState) (lmbda : Vec) :
    (lagJacobian slv st lmbda).2.memo
        = some (lmbda, boxProj (lagInnerX slv st lmbda) st.ub) ∧
    (lagJacobian slv st lmbda).1
        = vsub st.ub (lagInnerX slv st lmbda) ++ lagInnerX slv st lmbda ∧
    lagInnerX slv (lagJacobian slv st lmbda).2 lmbda
        = boxProj (lagInnerX slv st lmbda) st.ub ∧
    (lagFunction slv (lagJacobian slv st lmbda).2 lmbda).1
        = dualVal (lagJacobian slv st lmbda).2 lmbda
            (boxProj (lagInnerX slv st lmbda) st.ub) := by
  obtain ⟨hmemo, _, _, hub, _, _, _⟩ := lagJacobian_state slv st lmbda
  obtain ⟨_, _, _, hub2, _, _, _⟩ := lagMemoStep_fields slv st lmbda
  refine ⟨hmemo, ?_, lagInnerX_of_memo slv _ lmbda _ hmemo, ?_⟩
  · show (vsub (lagMemoStep slv st lmbda).ub (lagInnerX slv st lmbda)
          ++ lagInnerX slv st lmbda) = _
    rw [hub2]
  · show dualVal (lagJacobian slv st lmbda).2 lmbda
        (lagInnerX slv (lagJacobian slv st lmbda).2 lmbda) = _
    rw [lagInnerX_of_memo slv _ lmbda _ hmemo]

/-- C3 refutation at a concrete run: on the relaxation with
Q = [[1]], q = [0], ub = [1], two jacobian calls at lambda = (0, 2)
and then lambda = (0, 1/2) produce heuristic points [1] and [1/2] with
primal values 1/2 and 1/8, yet the cache ends holding value -(1/2),
which is neither the minimum 1/8 of the values seen nor the primal
value 1/2 of the cached point [1]: the code stores the negated value. -/
theorem c3_primal_cache_not_minimum :
    boxProj (lagInnerX cexSolve cexSt0 [0, 2]) cexSt0.ub = [1] ∧
    primalFun cexSt0 [1] = 1/2 ∧
    boxProj (lagInnerX cexSolve (lagJacobian cexSolve cexSt0 [0, 2]).2 [0, 1/2])
        cexSt0.ub = [1/2] ∧
    primalFun cexSt0 [1/2] = 1/8 ∧
    (lagJacobian cexSolve (lagJacobian cexSolve cexSt0 [0, 2]).2 [0, 1/2]).2.primalFX
        = .fin (-(1/2)) ∧
    (lagJacobian cexSolve (lagJacobian cexSolve cexSt0 [0, 2]).2 [0, 1/2]).2.primalX
        = some [1] ∧
    QInf.fin (-(1/2)) ≠ QInf.fin (1/8) ∧
    (-(1/2) : ℚ) ≠ primalFun cexSt0 [1] := by
  have h1 : lagJacobian cexSolve cexSt0 [0, 2] = ([-1, 2], cexSt1) := by
    norm_num [lagJacobian, lagMemoStep, memoHit, lagInnerX, boxProj, primalFun,
      vecMat, qltQI, cexSt0, cexSt1, cexSolve, qlOf, splitHalf, vadd, vsub, vneg,
      smul, dot]
  have h2 : lagJacobian cexSolve cexSt1 [0, 1/2] = ([1/2, 1/2], cexSt2) := by
    norm_num [lagJacobian, lagMemoStep, memoHit, lagInnerX, boxProj, primalFun,
      vecMat, qltQI, cexSt1, cexSt2, cexSolve, qlOf, splitHalf, vadd, vsub, vneg,
      smul, dot]
  refine ⟨?_, ?_, ?_, ?_, ?_, ?_, ?_, ?_⟩
  · norm_num [lagInnerX, boxProj, cexSt0, cexSolve, qlOf, splitHalf, vadd, vsub, vneg]
  · norm_num [primalFun, vecMat, cexSt0, vadd, smul, dot]
  · rw [h1]
    norm_num [lagInnerX, boxProj, memoHit, cexSt1, cexSt0, cexSolve, qlOf, splitHalf,
      vadd, vsub, vneg]
  · norm_num [primalFun, vecMat, cexSt0, vadd, smul, dot]
  · rw [h1, h2]
    norm_num [cexSt2]
  · rw [h1, h2]
    norm_num [cexSt2]
  · simp only [ne_eq, QInf.fin.injEq]
    norm_num
  · norm_num [primalFun, vecMat, cexSt0, vadd, smul, dot]

/-- C10: x_star always executes a raise statement whose operand is a
numpy array, which is not an exception, so every call fails with a
TypeError; f_star always returns positive infinity. -/
theorem c10_x_star_raises_type_error (ndim : Nat) :
    lagXStar ndim = .raised (.exc "TypeError") ∧
    (PyObj.ndarray ndim).isExc = false ∧
    lagFStar = .ok .floatInf :=
  ⟨rfl, rfl, rfl⟩

/-!
## ProximalBundle
Embeds src/optimization/unconstrained/proximal_bundle.py. The master
problem solve is delegated to an external QP toolchain whose calls in
the source use symbols that do not exist there, so the solver is the
abstract parameter qp (modelled from the spec: given the bundle data
and the incumbent it returns either a solution (d, v) or a failure
indicator), and the evaluation of objective and subgradient at the
trial point are the abstract parameters fFun and gFun (modelled from
the spec: evaluate the true objective and subgradient at x + d). The
numpy norm is the abstract parameter nrm. The state of the iteration
carries the incumbent, its objective value, the bundle as the parallel
append-only lists G of subgradients and F of intercepts, the iteration
counter, and a ghost trace hist of the incumbent objective value at
the end of each iteration.
-/

structure PBParams where
  mu : ℚ
  m1 : ℚ
  eps : ℚ
  maxIter : Nat
  mInf : ℚ
  deriving DecidableEq, Repr

structure PBState where
  x : Vec
  fx : ℚ
  G : List Vec
  F : List ℚ
  i : Nat
  hist : List ℚ
  deriving DecidableEq, Repr

/-- The Serious/Null step decision: the new cutting plane has already
been appended; the incumbent moves to x + d exactly when the descent
test fd <= fx + m1 (v - fx) holds, then the iteration counter moves
and the ghost trace records the incumbent value. -/
def pbSSNS (p : PBParams) (st : PBState) (v fd : ℚ) (d g : Vec) : PBState :=
  let G2 := st.G ++ [g]
  let F2 := st.F ++ [fd - dot g (vadd st.x d)]
  if fd ≤ st.fx + p.m1 * (v - st.fx) then
    { x := vadd st.x d, fx := fd, G := G2, F := F2, i := st.i + 1,
      hist := st.hist ++ [fd] }
  else
    { st with G := G2, F := F2, i := st.i + 1, hist := st.hist ++ [st.fx] }

/-- The main loop of ProximalBundle.minimize, in source order: master
solve, solver-failure break with status error, stopping criterion
mu ||d|| <= eps ng0, iteration budget, evaluation at the trial point,
unboundedness check, bundle append and Serious/Null decision. The
fuel argument bounds the recursion; none models a run still going
after that many iterations. -/
def pbLoop (fFun : Vec → ℚ) (gFun : Vec → Vec) (nrm : Vec → ℚ)
    (qp : List Vec → List ℚ → Vec → Option (Vec × ℚ))
    (p : PBParams) (ng0 : ℚ) : Nat → PBState → Option (PBState × TermStatus)
  | 0, _ => none
  | fuel + 1, st =>
    (qp st.G st.F st.x).elim (some (st, .error)) (fun dv =>
      if p.mu * nrm dv.1 ≤ p.eps * ng0 then some (st, .optimal)
      else if p.maxIter < st.i then some (st, .stopped)
      else
        let fd := fFun (vadd st.x dv.1)
        let g := gFun (vadd st.x dv.1)
        if fd ≤ p.mInf then some (st, .unbounded)
        else pbLoop fFun gFun nrm qp p ng0 fuel (pbSSNS p st dv.2 fd dv.1 g))

/-- The state set up before the loop: first evaluation at the
starting point and the initial bundle piece (g0, f0 - g0 . x0). -/
def pbInit (fFun : Vec → ℚ) (gFun : Vec → Vec) (x0 : Vec) : PBState :=
  { x := x0, fx := fFun x0, G := [gFun x0], F := [fFun x0 - dot (gFun x0) x0],
    i := 1, hist := [fFun x0] }

/-- The stopping scale: minus the first subgradient norm for a
relative criterion when eps < 0, otherwise 1. -/
def pbNg0 (gFun : Vec → Vec) (nrm : Vec → ℚ) (eps : ℚ) (x0 : Vec) : ℚ :=
  if eps < 0 then -(nrm (gFun x0)) else 1

/-- ProximalBundle.minimize: the loop cannot run more than maxIter + 1
times because the iteration counter starts at 1 and the budget check
breaks once it exceeds maxIter, so that much fuel suffices. -/
def pbMinimize (fFun : Vec → ℚ) (gFun : Vec → Vec) (nrm : Vec → ℚ)
    (qp : List Vec → List ℚ → Vec → Option (Vec × ℚ))
    (p : PBParams) (x0 : Vec) : Option (PBState × TermStatus) :=
  pbLoop fFun gFun nrm qp p (pbNg0 gFun nrm p.eps x0) (p.maxIter + 1)
    (pbInit fFun gFun x0)

/-- Non-increasing chains of rationals, decidably. -/
def nonIncr : List ℚ → Prop
  | [] => True
  | [_] => True
  | a :: b :: rest => b ≤ a ∧ nonIncr (b :: rest)

instance instDecNonIncr : (l : List ℚ) → Decidable (nonIncr l)
  | [] => isTrue trivial
  | [_] => isTrue trivial
  | a :: b :: rest =>
    haveI : Decidable (nonIncr (b :: rest)) := instDecNonIncr (b :: rest)
    inferInstanceAs (Decidable (b ≤ a ∧ nonIncr (b :: rest)))

theorem nonIncr_append_last (l : List ℚ) (a w : ℚ) (h : nonIncr l)
    (hl : l.getLast? = some a) (hw : w ≤ a) : nonIncr (l ++ [w]) := by
  induction l with
  | nil => cases hl
  | cons x rest ih =>
    cases rest with
    | nil =>
      cases hl
      exact ⟨hw, trivial⟩
    | cons y rest2 =>
      obtain ⟨hxy, htail⟩ := h
      exact ⟨hxy, ih htail (by simpa using hl)⟩

/-- Totality of the bundle loop: with iteration counter and fuel
covering the budget, the loop always returns, and with one of the
four terminal statuses. -/
theorem pbLoop_total (fFun : Vec → ℚ) (gFun : Vec → Vec) (nrm : Vec → ℚ)
    (qp : List Vec → List ℚ → Vec → Option (Vec × ℚ)) (p : PBParams) (ng0 : ℚ)
    (fuel : Nat) (st : PBState) (hf : p.maxIter < st.i + fuel) :
    ∃ stF s, pbLoop fFun gFun nrm qp p ng0 (fuel + 1) st = some (stF, s) ∧
      (s = .optimal ∨ s = .unbounded ∨ s = .stopped ∨ s = .error) := by
  induction fuel generalizing st with
  | zero =>
    simp only [pbLoop]
    cases hqp : qp st.G st.F st.x with
    | none => exact ⟨st, .error, rfl, by simp⟩
    | some dv =>
      simp only [Option.elim_some]
      by_cases h1 : p.mu * nrm dv.1 ≤ p.eps * ng0
      · exact ⟨st, .optimal, by rw [if_pos h1], by simp⟩
      · have h2 : p.maxIter < st.i := by simpa using hf
        exact ⟨st, .stopped, by rw [if_neg h1, if_pos h2], by simp⟩
  | succ fuel ih =>
    simp only [pbLoop]
    cases hqp : qp st.G st.F st.x with
    | none => exact ⟨st, .error, rfl, by simp⟩
    | some dv =>
      simp only [Option.elim_some]
      by_cases h1 : p.mu * nrm dv.1 ≤ p.eps * ng0
      · exact ⟨st, .optimal, by rw [if_pos h1], by simp⟩
      by_cases h2 : p.maxIter < st.i
      · exact ⟨st, .stopped, by rw [if_neg h1, if_pos h2], by simp⟩
      by_cases h3 : fFun (vadd st.x dv.1) ≤ p.mInf
      · exact ⟨st, .unbounded, by rw [if_neg h1, if_neg h2]; simp only [if_pos h3], by simp⟩
      · have hstep : (pbSSNS p st dv.2 (fFun (vadd st.x dv.1)) dv.1
            (gFun (vadd st.x dv.1))).i = st.i + 1 := by
          unfold pbSSNS
          split <;> rfl
        obtain ⟨stF, s, hrec, hs⟩ := ih (pbSSNS p st dv.2 (fFun (vadd st.x dv.1)) dv.1
          (gFun (vadd st.x dv.1))) (by omega)
        refine ⟨stF, s, ?_, hs⟩
        rw [if_neg h1, if_neg h2]
        simp only [if_neg h3]
        exact hrec

/-- C4: every run of the bundle method returns a pair of a point and
one of the four terminal statuses; a failure reported by the master QP
solver on the very first iteration terminates the run with status
error at the starting incumbent; in the model no evaluation or solver
failure is a raised fault because the loop is a total function into
the status-carrying option. -/
theorem c4_pb_total_and_error_on_qp_failure (fFun : Vec → ℚ) (gFun : Vec → Vec)
    (nrm : Vec → ℚ) (qp : List Vec → List ℚ → Vec → Option (Vec × ℚ))
    (p : PBParams) (x0 : Vec) :
    (∃ stF s, pbMinimize fFun gFun nrm qp p x0 = some (stF, s) ∧
       (s = .optimal ∨ s = .unbounded ∨ s = .stopped ∨ s = .error)) ∧
    (qp [gFun x0] [fFun x0 - dot (gFun x0) x0] x0 = none →
       pbMinimize fFun gFun nrm qp p x0 = some (pbInit fFun gFun x0, .error) ∧
       (pbInit fFun gFun x0).x = x0) := by
  constructor
  · exact pbLoop_total fFun gFun nrm qp p (pbNg0 gFun nrm p.eps x0) p.maxIter
      (pbInit fFun gFun x0) (by simp [pbInit])
  · intro hfail
    refine ⟨?_, rfl⟩
    unfold pbMinimize
    simp only [pbLoop]
    rw [show (pbInit fFun gFun x0).G = [gFun x0] from rfl,
        show (pbInit fFun gFun x0).F = [fFun x0 - dot (gFun x0) x0] from rfl,
        show (pbInit fFun gFun x0).x = x0 from rfl, hfail]
    rfl

/-- Witness for C4: a solver that fails immediately yields the error
status at the starting point. -/
theorem c4_witness :
    (∃ stF s, pbMinimize (fun _ => 0) (fun _ => [0]) (fun _ => 0)
        (fun _ _ _ => none) ⟨1, 0, 0, 1, -1000⟩ [0] = some (stF, s) ∧
       (s = .optimal ∨ s = .unbounded ∨ s = .stopped ∨ s = .error)) ∧
    pbMinimize (fun _ => 0) (fun _ => [0]) (fun _ => 0)
        (fun _ _ _ => none) ⟨1, 0, 0, 1, -1000⟩ [0]
      = some (pbInit (fun _ => 0) (fun _ => [0]) [0], .error) := by
  obtain ⟨h1, h2⟩ := c4_pb_total_and_error_on_qp_failure (fun _ => 0) (fun _ => [0])
    (fun _ => 0) (fun _ _ _ => none) ⟨1, 0, 0, 1, -1000⟩ [0]
  exact ⟨h1, (h2 rfl).1⟩

/-- The invariant for the incumbent trace: the stored value is the
objective at the incumbent, and the ghost trace is a non-increasing
chain ending at the stored value. -/
def pbInv (fFun : Vec → ℚ) (st : PBState) : Prop :=
  st.fx = fFun st.x ∧ st.hist.getLast? = some st.fx ∧ nonIncr st.hist

theorem pbSSNS_fx_le (p : PBParams) (st : PBState) (v fd : ℚ) (d g : Vec)
    (hv : v ≤ st.fx) (hm1 : 0 ≤ p.m1) :
    (pbSSNS p st v fd d g).fx ≤ st.fx := by
  unfold pbSSNS
  split
  · rename_i h
    show fd ≤ st.fx
    nlinarith
  · exact le_refl _

theorem pbSSNS_inv (fFun : Vec → ℚ) (p : PBParams) (st : PBState) (v : ℚ) (d g : Vec)
    (hv : v ≤ st.fx) (hm1 : 0 ≤ p.m1) (hInv : pbInv fFun st) :
    pbInv fFun (pbSSNS p st v (fFun (vadd st.x d)) d g) := by
  obtain ⟨h1, h2, h3⟩ := hInv
  have hfd : fFun (vadd st.x d) ≤ st.fx + p.m1 * (v - st.fx) →
      fFun (vadd st.x d) ≤ st.fx := by
    intro h
    nlinarith
  unfold pbSSNS
  split
  · rename_i h
    refine ⟨rfl, ?_, ?_⟩
    · show (st.hist ++ [fFun (vadd st.x d)]).getLast? = _
      simp
    · exact nonIncr_append_last st.hist st.fx _ h3 h2 (hfd h)
  · refine ⟨h1, ?_, ?_⟩
    · show (st.hist ++ [st.fx]).getLast? = _
      simp
    · exact nonIncr_append_last st.hist st.fx _ h3 h2 (le_refl _)

theorem pbLoop_inv (fFun : Vec → ℚ) (gFun : Vec → Vec) (nrm : Vec → ℚ)
    (qp : List Vec → List ℚ → Vec → Option (Vec × ℚ)) (p : PBParams) (ng0 : ℚ)
    (hq : ∀ G F x d v, qp G F x = some (d, v) → v ≤ fFun x) (hm1 : 0 ≤ p.m1)
    (fuel : Nat) :
    ∀ st stF s, pbLoop fFun gFun nrm qp p ng0 fuel st = some (stF, s) →
      pbInv fFun st → pbInv fFun stF ∧ stF.fx ≤ st.fx := by
  induction fuel with
  | zero =>
    intro st stF s h
    cases h
  | succ fuel ih =>
    intro st stF s h hInv
    simp only [pbLoop] at h
    cases hqp : qp st.G st.F st.x with
    | none =>
      rw [hqp] at h
      simp only [Option.elim_none, Option.some.injEq, Prod.mk.injEq] at h
      obtain ⟨h5, _⟩ := h
      rw [← h5]
      exact ⟨hInv, le_refl _⟩
    | some dv =>
      rw [hqp] at h
      simp only [Option.elim_some] at h
      by_cases h1 : p.mu * nrm dv.1 ≤ p.eps * ng0
      · rw [if_pos h1] at h
        simp only [Option.some.injEq, Prod.mk.injEq] at h
        obtain ⟨h5, _⟩ := h
        rw [← h5]
        exact ⟨hInv, le_refl _⟩
      rw [if_neg h1] at h
      by_cases h2 : p.maxIter < st.i
      · rw [if_pos h2] at h
        simp only [Option.some.injEq, Prod.mk.injEq] at h
        obtain ⟨h5, _⟩ := h
        rw [← h5]
        exact ⟨hInv, le_refl _⟩
      rw [if_neg h2] at h
      by_cases h3 : fFun (vadd st.x dv.1) ≤ p.mInf
      · simp only [if_pos h3, Option.some.injEq, Prod.mk.injEq] at h
        obtain ⟨h5, _⟩ := h
        rw [← h5]
        exact ⟨hInv, le_refl _⟩
      · simp only [if_neg h3] at h
        have hv : dv.2 ≤ st.fx := by
          rw [hInv.1]
          exact hq st.G st.F st.x dv.1 dv.2 (by rw [hqp])
        have hstepInv := pbSSNS_inv fFun p st dv.2 dv.1 (gFun (vadd st.x dv.1))
          hv hm1 hInv
        have hstepLe := pbSSNS_fx_le p st dv.2 (fFun (vadd st.x dv.1)) dv.1
          (gFun (vadd st.x dv.1)) hv hm1
        obtain ⟨hF, hle⟩ := ih _ _ _ h hstepInv
        exact ⟨hF, le_trans hle hstepLe⟩

/-- C6: with m1 in [0, 1] and every accepted master-problem value v
bounded by the objective value at the incumbent it was produced for,
the incumbent is replaced by x + d exactly when the descent test
fd <= fx + m1 (v - fx) holds, and the ghost trace of incumbent
objective values of a whole run is a non-increasing chain whose final
value does not exceed the starting objective value. -/
theorem c6_serious_step_and_monotone (fFun : Vec → ℚ) (gFun : Vec → Vec)
    (nrm : Vec → ℚ) (qp : List Vec → List ℚ → Vec → Option (Vec × ℚ))
    (p : PBParams) (x0 : Vec)
    (hq : ∀ G F x d v, qp G F x = some (d, v) → v ≤ fFun x)
    (hm1a : 0 ≤ p.m1) (hm1b : p.m1 ≤ 1)
    (st : PBState) (v fd : ℚ) (d g : Vec) (stF : PBState) (s : TermStatus)
    (hrun : pbMinimize fFun gFun nrm qp p x0 = some (stF, s)) :
    ((fd ≤ st.fx + p.m1 * (v - st.fx) →
        (pbSSNS p st v fd d g).x = vadd st.x d ∧ (pbSSNS p st v fd d g).fx = fd) ∧
     (¬ fd ≤ st.fx + p.m1 * (v - st.fx) →
        (pbSSNS p st v fd d g).x = st.x ∧ (pbSSNS p st v fd d g).fx = st.fx)) ∧
    nonIncr stF.hist ∧ stF.fx ≤ fFun x0 := by
  have hInit : pbInv fFun (pbInit fFun gFun x0) := ⟨rfl, rfl, trivial⟩
  obtain ⟨⟨_, _, hchain⟩, hle⟩ := pbLoop_inv fFun gFun nrm qp p
    (pbNg0 gFun nrm p.eps x0) hq hm1a (p.maxIter + 1) _ _ _ hrun hInit
  refine ⟨⟨?_, ?_⟩, hchain, hle⟩
  · intro h
    unfold pbSSNS
    rw [if_pos h]
    exact ⟨rfl, rfl⟩
  · intro h
    unfold pbSSNS
    rw [if_neg h]
    exact ⟨rfl, rfl⟩

/-- Witness for C6 on a concrete run where the master solver fails at
once, so the run is one iteration long. -/
theorem c6_witness :
    (((0 : ℚ) ≤ 0 + 0 * (0 - 0) →
        (pbSSNS ⟨1, 0, 0, 1, -1000⟩ (pbInit (fun _ => 0) (fun _ => [0]) [0]) 0 0 [0] [0]).x
            = vadd [0] [0] ∧
        (pbSSNS ⟨1, 0, 0, 1, -1000⟩ (pbInit (fun _ => 0) (fun _ => [0]) [0]) 0 0 [0] [0]).fx
            = 0) ∧
     (¬ (0 : ℚ) ≤ 0 + 0 * (0 - 0) →
        (pbSSNS ⟨1, 0, 0, 1, -1000⟩ (pbInit (fun _ => 0) (fun _ => [0]) [0]) 0 0 [0] [0]).x
            = (pbInit (fun _ => 0) (fun _ => [0]) [0]).x ∧
        (pbSSNS ⟨1, 0, 0, 1, -1000⟩ (pbInit (fun _ => 0) (fun _ => [0]) [0]) 0 0 [0] [0]).fx
            = (pbInit (fun _ => 0) (fun _ => [0]) [0]).fx)) ∧
    nonIncr (pbInit (fun _ => 0) (fun _ => [0]) [0]).hist ∧
    (pbInit (fun _ => 0) (fun _ => [0]) [0]).fx ≤ (fun (_ : Vec) => (0 : ℚ)) [0] := by
  have h := c6_serious_step_and_monotone (fun _ => 0) (fun _ => [0]) (fun _ => 0)
    (fun _ _ _ => none) ⟨1, 0, 0, 1, -1000⟩ [0]
    (fun G F x d v h => Option.noConfusion h) (le_refl 0) (by norm_num)
    (pbInit (fun _ => 0) (fun _ => [0]) [0]) 0 0 [0] [0]
    (pbInit (fun _ => 0) (fun _ => [0]) [0]) .error rfl
  exact ⟨⟨fun hc => ⟨((h.1.1 hc).1), ((h.1.1 hc).2)⟩,
          fun hc => ⟨((h.1.2 hc).1), ((h.1.2 hc).2)⟩⟩, h.2.1, h.2.2⟩

/-- A bundle piece is exact: it records the subgradient and the
translated value f - g . p of some past evaluation point p. -/
def pieceOK (fFun : Vec → ℚ) (gFun : Vec → Vec) (pc : Vec × ℚ) : Prop :=
  ∃ pt, pc.1 = gFun pt ∧ pc.2 = fFun pt - dot (gFun pt) pt

/-- Bundle invariant: the parallel lists stay the same length and
every piece is exact. -/
def pbBundleInv (fFun : Vec → ℚ) (gFun : Vec → Vec) (st : PBState) : Prop :=
  st.G.length = st.F.length ∧ ∀ pc ∈ st.G.zip st.F, pieceOK fFun gFun pc

theorem pbSSNS_bundle (p : PBParams) (st : PBState) (v fd : ℚ) (d g : Vec) :
    (pbSSNS p st v fd d g).G = st.G ++ [g] ∧
    (pbSSNS p st v fd d g).F = st.F ++ [fd - dot g (vadd st.x d)] := by
  unfold pbSSNS
  split <;> exact ⟨rfl, rfl⟩

theorem pbSSNS_bundleInv (fFun : Vec → ℚ) (gFun : Vec → Vec) (p : PBParams)
    (st : PBState) (v : ℚ) (d : Vec) (hInv : pbBundleInv fFun gFun st) :
    pbBundleInv fFun gFun
      (pbSSNS p st v (fFun (vadd st.x d)) d (gFun (vadd st.x d))) := by
  obtain ⟨hlen, hall⟩ := hInv
  obtain ⟨hG, hF⟩ := pbSSNS_bundle p st v (fFun (vadd st.x d)) d (gFun (vadd st.x d))
  constructor
  · rw [hG, hF]
    simp [hlen]
  · intro pc hmem
    rw [hG, hF, List.zip_append hlen] at hmem
    rcases List.mem_append.1 hmem with hold | hnew
    · exact hall pc hold
    · have : pc = (gFun (vadd st.x d),
          fFun (vadd st.x d) - dot (gFun (vadd st.x d)) (vadd st.x d)) := by
        simpa using hnew
      exact ⟨vadd st.x d, by rw [this], by rw [this]⟩

theorem pbLoop_bundleInv (fFun : Vec → ℚ) (gFun : Vec → Vec) (nrm : Vec → ℚ)
    (qp : List Vec → List ℚ → Vec → Option (Vec × ℚ)) (p : PBParams) (ng0 : ℚ)
    (fuel : Nat) :
    ∀ st stF s, pbLoop fFun gFun nrm qp p ng0 fuel st = some (stF, s) →
      pbBundleInv fFun gFun st → pbBundleInv fFun gFun stF := by
  induction fuel with
  | zero =>
    intro st stF s h
    cases h
  | succ fuel ih =>
    intro st stF s h hInv
    simp only [pbLoop] at h
    cases hqp : qp st.G st.F st.x with
    | none =>
      rw [hqp] at h
      simp only [Option.elim_none, Option.some.injEq, Prod.mk.injEq] at h
      rw [← h.1]
      exact hInv
    | some dv =>
      rw [hqp] at h
      simp only [Option.elim_some] at h
      by_cases h1 : p.mu * nrm dv.1 ≤ p.eps * ng0
      · rw [if_pos h1] at h
        simp only [Option.some.injEq, Prod.mk.injEq] at h
        rw [← h.1]
        exact hInv
      rw [if_neg h1] at h
      by_cases h2 : p.maxIter < st.i
      · rw [if_pos h2] at h
        simp only [Option.some.injEq, Prod.mk.injEq] at h
        rw [← h.1]
        exact hInv
      rw [if_neg h2] at h
      by_cases h3 : fFun (vadd st.x dv.1) ≤ p.mInf
      · simp only [if_pos h3, Option.some.injEq, Prod.mk.injEq] at h
        rw [← h.1]
        exact hInv
      · simp only [if_neg h3] at h
        exact ih _ _ _ h (pbSSNS_bundleInv fFun gFun p st dv.2 dv.1 hInv)

/-- C7: every affine piece (g, intercept) in the bundle of a finished
run, the initial piece included, records some evaluation point pt with
g its subgradient and intercept = f(pt) - g . pt, so the model value
intercept + g . pt of the piece at its generating point equals the
true objective value there. -/
theorem c7_bundle_piece_exactness (fFun : Vec → ℚ) (gFun : Vec → Vec)
    (nrm : Vec → ℚ) (qp : List Vec → List ℚ → Vec → Option (Vec × ℚ))
    (p : PBParams) (x0 : Vec) (stF : PBState) (s : TermStatus)
    (hrun : pbMinimize fFun gFun nrm qp p x0 = some (stF, s))
    (pc : Vec × ℚ) (hmem : pc ∈ stF.G.zip stF.F) :
    ∃ pt, pc.1 = gFun pt ∧ pc.2 = fFun pt - dot pc.1 pt ∧
      pc.2 + dot pc.1 pt = fFun pt := by
  have hInit : pbBundleInv fFun gFun (pbInit fFun gFun x0) := by
    refine ⟨rfl, ?_⟩
    intro pc hpc
    refine ⟨x0, ?_, ?_⟩ <;>
      · have : pc = (gFun x0, fFun x0 - dot (gFun x0) x0) := by
          simpa [pbInit] using hpc
        rw [this]
  have hF := pbLoop_bundleInv fFun gFun nrm qp p (pbNg0 gFun nrm p.eps x0)
    (p.maxIter + 1) _ _ _ hrun hInit
  obtain ⟨pt, hg, hc⟩ := hF.2 pc hmem
  refine ⟨pt, hg, ?_, ?_⟩
  · rw [hc, hg]
  · rw [hc, hg]
    ring

/-- Witness for C7: the initial piece of the one-iteration failing
run is exact at the starting point. -/
theorem c7_witness :
    ∃ pt, ([0] : Vec) = (fun (_ : Vec) => ([0] : Vec)) pt ∧
      (0 : ℚ) = (fun (_ : Vec) => (0 : ℚ)) pt - dot [0] pt ∧
      (0 : ℚ) + dot [0] pt = (fun (_ : Vec) => (0 : ℚ)) pt := by
  have h := c7_bundle_piece_exactness (fun _ => 0) (fun _ => [0]) (fun _ => 0)
    (fun _ _ _ => none) ⟨1, 0, 0, 1, -1000⟩ [0]
    (pbInit (fun _ => 0) (fun _ => [0]) [0]) .error rfl ([0], 0)
    (by simp [pbInit, dot])
  exact h

/-!
## AcceleratedGradient
Embeds src/optimization/unconstrained/accelerated_gradient.py. The
objective, its gradient, the numpy norm and sqrt, and the backtracking
line search (whose module is not under the sources) are abstract
function parameters; the line search follows the spec contract of
returning the accepted step, value, point, gradient and the updated
evaluation count. The local Python variable xv is an optional value
assigned only in the fixed-step branch; reading it unassigned is the
name-error outcome. Fuel bounds the recursion; running out of fuel is
a distinct outcome.
-/

structure AGParams where
  eps : ℚ
  aStart : ℚ
  m1 : ℚ
  mon : ℚ
  wf : Nat
  maxFEval : Nat
  tau : ℚ
  mInf : ℚ
  minA : ℚ
  deriving DecidableEq, Repr

structure AGState where
  x : Vec
  y : Vec
  lastX : Vec
  lastG : Vec
  fEval : Nat
  i : Nat
  gamma : ℚ
  pastX : Vec
  pastXV : QInf
  xv : Option ℚ
  aStart : ℚ
  deriving DecidableEq, Repr

/-- What the backtracking line search hands back. -/
structure LSResult where
  a : ℚ
  v : ℚ
  lastX : Vec
  lastG : Vec
  fEval : Nat
  deriving DecidableEq, Repr

inductive AGErr
  | nameErr
  | fuelOut
  deriving DecidableEq, Repr

/-- The momentum update closing an iteration: one of the four wf
formulas builds the next extrapolation point y from the accepted point
lastX and the incumbent x (the sqrt of numpy is the abstract sqrtQ);
the local direction variable was reassigned to -g earlier in the
iteration, so the wf = 3 accumulation combines g with -g; then
x moves to lastX and the iteration counter advances. -/
def agNext (sqrtQ : ℚ → ℚ) (p : AGParams) (st : AGState) (a : ℚ) (g : Vec) : AGState :=
  let i : ℚ := st.i
  if p.wf = 0 then
    let g2 := (sqrtQ (4 * st.gamma ^ 2 + st.gamma ^ 4) - st.gamma ^ 2) / 2
    let beta := g2 * (1 / st.gamma - 1)
    { st with gamma := g2, y := vadd st.lastX (smul beta (vsub st.lastX st.x)),
              x := st.lastX, i := st.i + 1 }
  else if p.wf = 1 then
    let g2 := (1 + sqrtQ (1 + 4 * st.gamma)) / 2
    let beta := (st.gamma - 1) / g2
    { st with gamma := g2, y := vadd st.lastX (smul beta (vsub st.lastX st.x)),
              x := st.lastX, i := st.i + 1 }
  else if p.wf = 2 then
    let beta := i / (i + 3)
    { st with y := vadd st.lastX (smul beta (vsub st.lastX st.x)),
              x := st.lastX, i := st.i + 1 }
  else
    let d2 := vadd (smul (2 / (i + 2)) g) (smul (i / (i + 2)) (vneg g))
    let z := smul (-((i + 1) * (i + 2) * a / 4)) d2
    { st with y := vadd (smul (2 / (i + 3)) z) (smul ((i + 1) / (i + 3)) st.lastX),
              x := st.lastX, i := st.i + 1 }

/-- The main loop of AcceleratedGradient.minimize, in source order:
evaluate at y, compute the stopping scale (minus the current gradient
norm only when this is the first evaluation and eps < 0, otherwise 1),
bump the evaluation count, monotone incumbent update, stopping and
budget checks, step computation by line search (m1 > 0) or fixed step,
step-collapse and unboundedness checks, second monotone block reading
the local xv, momentum update, recurse. -/
def agLoop (fFun : Vec → ℚ) (gFun : Vec → Vec) (nrm : Vec → ℚ) (sqrtQ : ℚ → ℚ)
    (ls : Vec → Vec → Vec → Vec → Nat → ℚ → ℚ → ℚ → LSResult)
    (p : AGParams) : Nat → AGState → Except AGErr (Vec × TermStatus)
  | 0, _ => .error .fuelOut
  | fuel + 1, st =>
    let v0 := fFun st.y
    let g := gFun st.y
    let ng := nrm g
    let ng0 : ℚ := if st.fEval = 1 ∧ p.eps < 0 then -ng else 1
    let fe1 := st.fEval + 1
    let st1 := if p.mon ≠ 0 then
        (if qltQI v0 st.pastXV then { st with x := st.y, pastXV := .fin v0 } else st)
      else st
    if ng ≤ p.eps * ng0 then .ok (st1.x, .optimal)
    else if p.maxFEval < fe1 then .ok (st1.x, .stopped)
    else
      let d := vneg g
      let stepR : ℚ × ℚ × AGState :=
        if 0 < p.m1 then
          let r := ls d st1.x st1.lastX st1.lastG fe1 v0 (-ng) (abs st1.aStart)
          (r.a, r.v,
           { st1 with lastX := r.lastX, lastG := r.lastG, fEval := r.fEval,
                      aStart := if st1.aStart < 0 then -r.a else st1.aStart })
        else
          let a := abs st1.aStart
          let lx := vsub st1.y (smul a g)
          (a, v0,
           { st1 with lastX := lx, fEval := fe1,
                      xv := if p.mon ≠ 0 then some (fFun lx) else st1.xv })
      let a := stepR.1
      let vCur := stepR.2.1
      let st2 := stepR.2.2
      if a ≤ p.minA then .ok (st2.x, .error)
      else if vCur ≤ p.mInf then .ok (st2.x, .unbounded)
      else if p.mon ≠ 0 then
        match st2.xv with
        | none => .error .nameErr
        | some xvv =>
          let st3 := if qgtQI xvv st2.pastXV then { st2 with lastX := st2.pastX }
                     else { st2 with pastX := st2.lastX, pastXV := .fin xvv }
          agLoop fFun gFun nrm sqrtQ ls p fuel (agNext sqrtQ p st3 a g)
      else
        agLoop fFun gFun nrm sqrtQ ls p fuel (agNext sqrtQ p st2 a g)

/-- The state set up before the loop (the monotone bookkeeping is
initialized unconditionally here; when mon is falsy the code never
reads it, so this is unobservable). -/
def agInit (x0 : Vec) (aStart : ℚ) : AGState :=
  { x := x0, y := x0, lastX := List.replicate x0.length 0,
    lastG := List.replicate x0.length 0, fEval := 1, i := 1, gamma := 1,
    pastX := x0, pastXV := .inf, xv := none, aStart := aStart }

/-- C9: with mon nonzero and m1 > 0 (monotone mode with the
backtracking line search), the first iteration that passes the
stopping, budget, step-size and unboundedness checks reads the local
variable xv in the second monotone block, but xv is assigned only in
the fixed-step branch, so minimize terminates with an uncaught name
error instead of returning a point and status. -/
theorem c9_monotone_line_search_name_error (fFun : Vec → ℚ) (gFun : Vec → Vec)
    (nrm : Vec → ℚ) (sqrtQ : ℚ → ℚ)
    (ls : Vec → Vec → Vec → Vec → Nat → ℚ → ℚ → ℚ → LSResult)
    (p : AGParams) (x0 : Vec) (fuel : Nat)
    (hm1 : 0 < p.m1) (hmon : p.mon ≠ 0)
    (h1 : ¬ nrm (gFun x0) ≤ p.eps * (if p.eps < 0 then -(nrm (gFun x0)) else 1))
    (h2 : ¬ p.maxFEval < 2)
    (h3 : ¬ (ls (vneg (gFun x0)) x0 (List.replicate x0.length 0)
        (List.replicate x0.length 0) 2 (fFun x0) (-(nrm (gFun x0)))
        (abs p.aStart)).a ≤ p.minA)
    (h4 : ¬ (ls (vneg (gFun x0)) x0 (List.replicate x0.length 0)
        (List.replicate x0.length 0) 2 (fFun x0) (-(nrm (gFun x0)))
        (abs p.aStart)).v ≤ p.mInf) :
    agLoop fFun gFun nrm sqrtQ ls p (fuel + 1) (agInit x0 p.aStart)
      = .error .nameErr := by
  simp only [agLoop, agInit, Nat.reduceAdd]
  rw [if_pos hmon]
  rw [if_pos (show qltQI (fFun x0) QInf.inf from trivial)]
  simp only [true_and]
  rw [if_neg h1]
  rw [if_neg h2]
  simp only [if_pos hm1]
  rw [if_neg h3]
  rw [if_neg h4]
  rw [if_pos hmon]

/-- Witness for C9 at a concrete configuration. -/
theorem c9_witness :
    agLoop (fun _ => 0) (fun _ => [1]) (fun _ => 1) (fun q => q)
        (fun _ _ _ _ _ _ _ _ => ⟨1, 0, [0], [0], 3⟩)
        ⟨0, 1, 1/2, 1, 2, 10, 9/10, -1000, 1/1000⟩ 1 (agInit [1] 1)
      = .error .nameErr :=
  c9_monotone_line_search_name_error (fun _ => 0) (fun _ => [1]) (fun _ => 1)
    (fun q => q) (fun _ _ _ _ _ _ _ _ => ⟨1, 0, [0], [0], 3⟩)
    ⟨0, 1, 1/2, 1, 2, 10, 9/10, -1000, 1/1000⟩ [1] 0 (by norm_num) (by norm_num)
    (by norm_num) (by norm_num) (by norm_num) (by norm_num)

/-- The objective f(y) = y^2 / 2 in one dimension. -/
def c2F : Vec → ℚ := fun v => v.headI * v.headI / 2

/-- Its gradient g(y) = y. -/
def c2G : Vec → Vec := fun v => v

/-- The Euclidean norm in one dimension. -/
def c2Nrm : Vec → ℚ := fun v => |v.headI|

def c2Sqrt : ℚ → ℚ := fun q => q

/-- Line search never called since m1 = 0. -/
def c2LS : Vec → Vec → Vec → Vec → Nat → ℚ → ℚ → ℚ → LSResult :=
  fun _ _ _ _ _ _ _ _ => ⟨0, 0, [], [], 0⟩

/-- eps = -1/2 (relative criterion), fixed step 1/2, no line search,
non-monotone, wf = 2, budget of 3 evaluations. -/
def c2P : AGParams := ⟨-(1/2), 1/2, 0, 0, 2, 3, 9/10, -1000, 1/1000000⟩

/-- The state at the start of iteration 2 of the run from x0 = [1]:
the second evaluation point is y = [3/8]. -/
def c2St2 : AGState :=
  { x := [1/2], y := [3/8], lastX := [1/2], lastG := [0], fEval := 2, i := 2,
    gamma := 1, pastX := [1], pastXV := .inf, xv := none, aStart := 1/2 }

set_option maxHeartbeats 2000000 in
/-- C2 refutation at a concrete run: minimizing y^2/2 from y = 1 with
eps = -1/2, fixed step 1/2, wf = 2 and a budget of 3 evaluations, the
second iteration evaluates the gradient at y = [3/8], where the
claimed relative criterion |g| <= (-eps) |g first| = 1/2 holds; yet
the code compares |g| against eps ng0 with ng0 reset to 1 after the
first evaluation, which can never hold for eps < 0, and the run ends
with status stopped instead of optimal. -/
theorem c2_relative_criterion_dropped_after_first_iteration :
    agLoop c2F c2G c2Nrm c2Sqrt c2LS c2P 10 (agInit [1] (1/2))
        = agLoop c2F c2G c2Nrm c2Sqrt c2LS c2P 9 c2St2 ∧
    agLoop c2F c2G c2Nrm c2Sqrt c2LS c2P 10 (agInit [1] (1/2))
        = .ok ([3/16], .stopped) ∧
    c2Nrm (c2G c2St2.y) ≤ (1/2) * c2Nrm (c2G (agInit [1] (1/2)).y) ∧
    ¬ c2Nrm (c2G c2St2.y) ≤ c2P.eps * 1 := by
  refine ⟨?_, ?_, ?_, ?_⟩
  · norm_num [agLoop, agInit, agNext, c2F, c2G, c2Nrm, c2Sqrt, c2LS, c2P, c2St2,
      vadd, vsub, vneg, smul, qltQI, qgtQI, List.headI, abs_of_nonneg]
  · norm_num [agLoop, agInit, agNext, c2F, c2G, c2Nrm, c2Sqrt, c2LS, c2P, c2St2,
      vadd, vsub, vneg, smul, qltQI, qgtQI, List.headI, abs_of_nonneg]
  · norm_num [c2Nrm, c2G, c2St2, agInit, List.headI, abs_of_nonneg]
  · norm_num [c2Nrm, c2G, c2St2, c2P, List.headI, abs_of_nonneg]

end NumOpt
